import Mathlib

set_option linter.unusedVariables false

/-!
Shallow embedding of the hangulize HRE pattern core
(src/hangulize/var.go): the variable expander expandVars/getVar, the
scanning loop Pattern.Find and the replacement driver Pattern.Replace.

Go strings are modelled as lists of characters and Go int slices as
lists of integers.  The external regular-expression engine (package
regexp, an out-of-scope collaborator) is modelled by functions of type
List Char → List Int returning what FindStringSubmatchIndex returns:
an empty list when there is no match, otherwise a flat list of group
index pairs, with -1 for a group that did not participate.  Concrete
matcher functions below each model one concrete compiled regular
expression, named in their doc comment.

The Go for-loop in Find has no termination guarantee, so the loop is
embedded with an explicit fuel argument; running out of fuel is an
observable outcome (FindRes.fuelOut), distinct from the two ways the
real loop ends (normal break, or the panic on malformed submatches).
-/

/-- Return convention of FindStringSubmatchIndex. -/
abbrev Submatches := List Int

/-- The compiled pattern: positive regexp re and negative regexp neg,
as in the Go struct Pattern (the diagnostic fields expr, letters and
usedVars do not influence Find or Replace and are omitted). -/
structure Pattern where
  re : List Char → Submatches
  neg : List Char → Submatches

/-- Outcome of one iteration of the loop body of Find. -/
inductive StepRes where
  | noMore : StepRes
  | panicked : StepRes
  | next (ms : List (List Int)) (offset : Nat) : StepRes
deriving DecidableEq

/-- Outcome of the whole Find loop under a given amount of fuel. -/
inductive FindRes where
  | done (ms : List (List Int)) : FindRes
  | panicked : FindRes
  | fuelOut : FindRes
deriving DecidableEq

/-- The scanning view built at the top of each Find iteration:
erased = strings.Repeat(".", offset) + word[offset:]. -/
def maskWord (word : List Char) (offset : Nat) : List Char :=
  List.replicate offset '.' ++ word.drop offset

/-- The raw matched substring: highlight = erased[m[0]:m[1]]. -/
def rawHighlight (word : List Char) (offset : Nat) (m : Submatches) : List Char :=
  ((maskWord word offset).drop m[0]!.toNat).take (m[1]! - m[0]!).toNat

/-- One iteration of the body of the for-loop in Pattern.Find,
translated clause by clause from src/hangulize/var.go lines 137-186. -/
def Pattern.findStep (p : Pattern) (word : List Char)
    (ms : List (List Int)) (offset : Nat) : StepRes :=
  let erased := maskWord word offset
  let m := p.re erased
  if m.length = 0 ∨ m[1]! - m[0]! = 0 then
    .noMore
  else if m.length < 10 then
    .panicked
  else
    let start := if m[5]! = -1 then m[0]! else m[5]!
    let stop := if m[m.length - 4]! = -1 then m[1]! else m[m.length - 4]!
    let highlight := rawHighlight word offset m
    let negM := p.neg highlight
    if negM.length = 0 then
      .next (ms ++ [[start, stop] ++ (m.drop 6).take (m.length - 10)]) stop.toNat
    else
      .next ms (m[0]! + negM[1]!).toNat

/-- The for-loop of Pattern.Find: the condition n < 0 || len(matches) < n
is checked before every iteration; fuel makes nontermination observable. -/
def Pattern.findLoop (p : Pattern) (word : List Char) (n : Int) :
    Nat → List (List Int) → Nat → FindRes
  | 0, _, _ => .fuelOut
  | fuel + 1, ms, offset =>
    if n < 0 ∨ (ms.length : Int) < n then
      match p.findStep word ms offset with
      | .noMore => .done ms
      | .panicked => .panicked
      | .next ms' offset' => p.findLoop word n fuel ms' offset'
    else
      .done ms

/-- Pattern.Find: searches up to n matches in the word
(matches := empty, offset := 0, then the loop). -/
def Pattern.Find (p : Pattern) (word : List Char) (n : Int) (fuel : Nat) : FindRes :=
  p.findLoop word n fuel [] 0

/-- The replacement collaborator: RPattern is modelled by its
Interpolate behaviour, a function of the pattern, the word and one
match record. -/
def RPattern := Pattern → List Char → List Int → List Char

/-- The for-loop of Pattern.Replace, translated together with its
panics.  The accumulator buf models the strings.Builder; out models
the lines printed by the fmt.Println call in the loop body, one
(start, stop) pair per accepted match.  A none result models a Go
panic: reading start and stop from a match record shorter than two,
the slice word[offset:start] or the final slice word[offset:] with
bounds out of range (as happens when the match list carries decreasing
spans), or reading rpatterns[0] from an empty rule list. -/
def Pattern.replaceLoop (p : Pattern) (word : List Char) (rps : List RPattern) :
    List (List Int) → Int → List Char → List (Int × Int) →
      Option (List Char × List (Int × Int))
  | [], offset, buf, out =>
    if 0 ≤ offset ∧ offset ≤ (word.length : Int) then
      some (buf ++ word.drop offset.toNat, out)
    else none
  | m :: rest, offset, buf, out =>
    if m.length < 2 then none
    else
      let start := m[0]!
      let stop := m[1]!
      if 0 ≤ offset ∧ offset ≤ start ∧ start ≤ (word.length : Int) then
        match rps with
        | [] => none
        | rp :: _ =>
          p.replaceLoop word rps rest stop
            (buf ++ ((word.drop offset.toNat).take (start - offset).toNat) ++ rp p word m)
            (out ++ [(start, stop)])
      else none

/-- Pattern.Replace: runs Find, then splices interpolated text between
the untouched spans.  The Go function returns a singleton string slice;
here the result also carries the list of printed lines, and is none
when the underlying Find run panicked or ran out of fuel, or when the
replacement loop itself panicked. -/
def Pattern.Replace (p : Pattern) (word : List Char) (rps : List RPattern)
    (n : Int) (fuel : Nat) : Option (List (List Char) × List (Int × Int)) :=
  match p.Find word n fuel with
  | .done ms =>
    match p.replaceLoop word rps ms 0 [] [] with
    | some r => some ([r.1], r.2)
    | none => none
  | _ => none

/-- Decidable check that a match list has non-decreasing,
non-overlapping spans: each stop is at most the next start. -/
def spansSorted : List (List Int) → Bool
  | [] => true
  | [_] => true
  | a :: b :: rest => (a[1]! ≤ b[0]!) && spansSorted (b :: rest)

/-!
Concrete matcher models.  Each models the FindStringSubmatchIndex
behaviour of one concrete compiled Go regular expression.
-/

/-- Models the compiled positive regexp ()()c()() for a single literal
character c, the shape NewPattern builds for an expression with no
anchors and no lookaround: the leftmost occurrence of c is the match
and the four bracketing groups participate with zero width. -/
def reLitChar (c : Char) (s : List Char) : Submatches :=
  match s.findIdx? (· = c) with
  | none => []
  | some i => [(i : Int), (i : Int) + 1, (i : Int), (i : Int), (i : Int), (i : Int),
               (i : Int) + 1, (i : Int) + 1, (i : Int) + 1, (i : Int) + 1]

/-- Models a compiled negative regexp that matches no string at all,
for a pattern with no negative lookaround. -/
def negNever (s : List Char) : Submatches := []

/-- Models the compiled negative regexp b built from the negative
lookaround body of the HRE expression a followed by negative
lookahead b: the leftmost occurrence of the letter b. -/
def negLitB (s : List Char) : Submatches :=
  match s.findIdx? (· = 'b') with
  | none => []
  | some i => [(i : Int), (i : Int) + 1]

/-- Models the compiled positive regexp for the HRE expression of the
letter a followed by the negative lookahead on the letter b: the raw
match consumes a and, when present, the following b, which the
trailing lookahead group captures, so that the highlight contains the
lookahead text while the semantic span stops before it. -/
def reANegLookB (s : List Char) : Submatches :=
  match s.findIdx? (· = 'a') with
  | none => []
  | some i =>
    if s[i + 1]? = some 'b' then
      [(i : Int), (i : Int) + 2, (i : Int), (i : Int), (i : Int), (i : Int),
       (i : Int) + 1, (i : Int) + 2, (i : Int) + 2, (i : Int) + 2]
    else
      [(i : Int), (i : Int) + 1, (i : Int), (i : Int), (i : Int), (i : Int),
       (i : Int) + 1, (i : Int) + 1, (i : Int) + 1, (i : Int) + 1]

/-- Models the compiled positive regexp for an HRE expression with a
positive lookbehind on the letter x and a positive lookahead on the
letter y around the letter a: the raw match spans x a y while the
lookbehind group ends after x and the lookahead group starts before y. -/
def reLookXAY (s : List Char) : Submatches :=
  match s.findIdx? (fun c => c = 'x') with
  | none => []
  | some i =>
    if s[i + 1]? = some 'a' ∧ s[i + 2]? = some 'y' then
      [(i : Int), (i : Int) + 3, (i : Int), (i : Int), (i : Int), (i : Int) + 1,
       (i : Int) + 2, (i : Int) + 3, (i : Int) + 3, (i : Int) + 3]
    else []

/-- Models the FindStringSubmatchIndex behaviour of a compiled regexp
with no capture groups at all, such as a bare literal: only the full
match pair is returned.  A Pattern holding such a positive regexp
violates the four-bracketing-groups construction invariant. -/
def reBareChar (c : Char) (s : List Char) : Submatches :=
  match s.findIdx? (· = c) with
  | none => []
  | some i => [(i : Int), (i : Int) + 1]

/-- The Pattern compiled from an expression whose only content is a
variable with the single value of a literal dot: positive regexp
()()(?:\.)()() and a never-matching negative regexp. -/
def pDot : Pattern := ⟨reLitChar '.', negNever⟩

/-- The Pattern compiled from the single-letter expression a. -/
def pLitA : Pattern := ⟨reLitChar 'a', negNever⟩

/-- The Pattern compiled from the single-letter expression l. -/
def pLitL : Pattern := ⟨reLitChar 'l', negNever⟩

/-- The Pattern compiled from the letter a followed by a negative
lookahead on the letter b. -/
def pANegB : Pattern := ⟨reANegLookB, negLitB⟩

/-- The Pattern with lookbehind x and lookahead y around the letter a. -/
def pXAY : Pattern := ⟨reLookXAY, negNever⟩

/-!
The variable expander of src/hangulize/var.go.  The Go code applies
reVar.ReplaceAllStringFunc with reVar compiled from the source
<(.+?)> : leftmost-first matching, so a token starts at a < and its
lazy content is the shortest nonempty run of non-newline characters
followed by >.  The scanner below reproduces that: at each <, the
closing bracket is the first > at distance at least two; a newline or
the end of the string before such a > means no token starts here and
scanning resumes at the next character.
-/

/-- Characters escaped by regexp.QuoteMeta. -/
def isRegexSpecial (c : Char) : Bool :=
  c = '\\' ∨ c = '.' ∨ c = '+' ∨ c = '*' ∨ c = '?' ∨ c = '(' ∨ c = ')' ∨
  c = '|' ∨ c = '[' ∨ c = ']' ∨ c = '\x7b' ∨ c = '\x7d' ∨ c = '^' ∨ c = '$'

/-- regexp.QuoteMeta: backslash-escape every regexp metacharacter. -/
def quoteMeta : List Char → List Char
  | [] => []
  | c :: cs => if isRegexSpecial c then '\\' :: c :: quoteMeta cs else c :: quoteMeta cs

/-- Search for the closing bracket of a variable token: acc holds the
content read so far (reversed); the first > ends the token, a newline
or the end of the input means the token never closes. -/
def closeVarGo (acc : List Char) : List Char → Option (List Char × List Char)
  | [] => none
  | c :: cs =>
    if c = '>' then some (acc.reverse, cs)
    else if c = '\n' then none
    else closeVarGo (c :: acc) cs

/-- Match the lazy content of reVar right after an opening <: the
content needs at least one character, which may itself be any
non-newline character including >. -/
def closeVar : List Char → Option (List Char × List Char)
  | [] => none
  | c :: cs => if c = '\n' then none else closeVarGo [c] cs

theorem closeVarGo_length {acc content rest : List Char} :
    ∀ {l : List Char}, closeVarGo acc l = some (content, rest) → rest.length < l.length := by
  intro l
  induction l generalizing acc with
  | nil => intro h; simp [closeVarGo] at h
  | cons c cs ih =>
    intro h
    simp only [closeVarGo] at h
    split at h
    · cases h; simp
    · split at h
      · cases h
      · exact Nat.lt_trans (ih h) (Nat.lt_succ_self _)

theorem closeVar_length {content rest : List Char} :
    ∀ {l : List Char}, closeVar l = some (content, rest) → rest.length < l.length := by
  intro l h
  cases l with
  | nil => simp [closeVar] at h
  | cons c cs =>
    simp only [closeVar] at h
    split at h
    · cases h
    · exact Nat.lt_trans (closeVarGo_length h) (Nat.lt_succ_self _)

/-- The variable table: variable names mapped to ordered value lists.
The Go map lookup vars[name] yields the nil slice for an absent key. -/
abbrev VarTable := List (List Char × List (List Char))

/-- getVar: name := strings.Trim(expr, the cutset of angle brackets);
the left trim of that cutset. -/
def trimLeftAngle : List Char → List Char
  | [] => []
  | c :: cs => if c = '<' ∨ c = '>' then trimLeftAngle cs else c :: cs

/-- strings.Trim with the angle-bracket cutset: strip from both ends. -/
def strTrimAngles (l : List Char) : List Char :=
  (trimLeftAngle ((trimLeftAngle l).reverse)).reverse

/-- getVar from src/hangulize/var.go: retrieve the variable name and
its values; an absent name yields the empty value list. -/
def getVar (expr : List Char) (vars : VarTable) : List Char × List (List Char) :=
  let name := strTrimAngles expr
  let vals := (List.lookup name vars).getD []
  (name, vals)

/-- The replacement callback inside expandVars: escape every value and
join them into a non-capturing alternation. -/
def varSubst (vars : VarTable) (varExpr : List Char) : List Char :=
  let nv := getVar varExpr vars
  let escapedVals := nv.2.map quoteMeta
  "(?:".data ++ List.intercalate ['|'] escapedVals ++ ")".data

/-- expandVars from src/hangulize/var.go: replace every variable token
with its alternation.  As in the source, only the rewritten expression
is returned; the substituted value lists are dropped. -/
def expandVars : List Char → VarTable → List Char
  | [], _ => []
  | c :: cs, vars =>
    if c = '<' then
      match hcv : closeVar cs with
      | some (content, rest) =>
        varSubst vars ('<' :: (content ++ ['>'])) ++ expandVars rest vars
      | none => c :: expandVars cs vars
    else c :: expandVars cs vars
termination_by l _ => l.length
decreasing_by
  · exact Nat.lt_trans (closeVar_length hcv) (Nat.lt_succ_self _)
  · simp
  · simp

/-- Modelled from the spec: the variable expansion step as the caller
NewPattern (src/hangulize/var.go, the line binding reExpr and usedVars)
consumes it, per section 4.1 of the spec, which is missing from the
given expandVars: return the rewritten expression together with the
ordered record of the raw unescaped value lists substituted, one entry
per variable token in left-to-right source order. -/
def expandVarsSpec : List Char → VarTable → List Char × List (List (List Char))
  | [], _ => ([], [])
  | c :: cs, vars =>
    if c = '<' then
      match hcv : closeVar cs with
      | some (content, rest) =>
        let nv := getVar ('<' :: (content ++ ['>'])) vars
        let tail := expandVarsSpec rest vars
        (varSubst vars ('<' :: (content ++ ['>'])) ++ tail.1, nv.2 :: tail.2)
      | none =>
        let tail := expandVarsSpec cs vars
        (c :: tail.1, tail.2)
    else
      let tail := expandVarsSpec cs vars
      (c :: tail.1, tail.2)
termination_by l _ => l.length
decreasing_by
  · exact Nat.lt_trans (closeVar_length hcv) (Nat.lt_succ_self _)
  · simp
  · simp

/-!
Helper lemmas about the scanner, shared by several results below.
-/

theorem trimLeftAngle_eq_self {l : List Char} (h : ∀ c ∈ l, ¬(c = '<' ∨ c = '>')) :
    trimLeftAngle l = l := by
  cases l with
  | nil => rfl
  | cons c cs =>
    simp only [trimLeftAngle]
    rw [if_neg (h c (List.mem_cons_self _ _))]

theorem strTrimAngles_token {name : List Char} (hne : name ≠ [])
    (hclean : ∀ c ∈ name, c ≠ '<' ∧ c ≠ '>') :
    strTrimAngles ('<' :: (name ++ ['>'])) = name := by
  obtain ⟨n0, ns, rfl⟩ := List.exists_cons_of_ne_nil hne
  have h0 := hclean n0 (List.mem_cons_self _ _)
  have h1 : trimLeftAngle ('<' :: ((n0 :: ns) ++ ['>'])) = (n0 :: ns) ++ ['>'] := by
    simp only [trimLeftAngle, List.cons_append]
    simp [h0.1, h0.2]
  have h2 : trimLeftAngle ((n0 :: ns).reverse) = (n0 :: ns).reverse := by
    refine trimLeftAngle_eq_self (fun c hc => ?_)
    have := hclean c (List.mem_reverse.mp hc)
    simp [this.1, this.2]
  rw [strTrimAngles, h1]
  have h3 : ((n0 :: ns) ++ ['>']).reverse = '>' :: (n0 :: ns).reverse := by simp
  rw [h3]
  have h4 : trimLeftAngle ('>' :: (n0 :: ns).reverse) = trimLeftAngle ((n0 :: ns).reverse) := by
    simp [trimLeftAngle]
  rw [h4, h2, List.reverse_reverse]

theorem closeVarGo_clean {ns : List Char} (h : ∀ c ∈ ns, ¬(c = '>') ∧ ¬(c = '\n')) :
    ∀ (acc suf : List Char), closeVarGo acc (ns ++ '>' :: suf) = some (acc.reverse ++ ns, suf) := by
  induction ns with
  | nil => intro acc suf; simp [closeVarGo]
  | cons c cs ih =>
    intro acc suf
    have hc := h c (List.mem_cons_self _ _)
    have ih' := ih (fun d hd => h d (List.mem_cons_of_mem _ hd)) (c :: acc) suf
    simp only [List.cons_append, closeVarGo, List.append_eq] at ih' ⊢
    rw [if_neg hc.1, if_neg hc.2, ih']
    simp

theorem closeVar_clean {name : List Char} (hne : name ≠ [])
    (hclean : ∀ c ∈ name, c ≠ '>' ∧ c ≠ '\n') (suf : List Char) :
    closeVar (name ++ '>' :: suf) = some (name, suf) := by
  obtain ⟨n0, ns, rfl⟩ := List.exists_cons_of_ne_nil hne
  have h0 := hclean n0 (List.mem_cons_self _ _)
  simp only [List.cons_append, closeVar]
  rw [if_neg h0.2,
    closeVarGo_clean (fun c hc => (hclean c (List.mem_cons_of_mem _ hc)) ) [n0] suf]
  simp

theorem expandVars_copy {pre : List Char} (hpre : '<' ∉ pre) (rest : List Char) (vars : VarTable) :
    expandVars (pre ++ rest) vars = pre ++ expandVars rest vars := by
  induction pre with
  | nil => simp
  | cons c pre ih =>
    have hc : c ≠ '<' := fun h => hpre (h ▸ List.mem_cons_self c pre)
    have hpre' : '<' ∉ pre := fun h => hpre (List.mem_cons_of_mem _ h)
    rw [List.cons_append]
    conv_lhs => rw [expandVars]
    rw [if_neg hc, ih hpre']
    rfl

theorem expandVars_token_step {name : List Char} (hne : name ≠ [])
    (hclean : ∀ c ∈ name, c ≠ '<' ∧ c ≠ '>' ∧ c ≠ '\n') (suf : List Char) (vars : VarTable) :
    expandVars ('<' :: (name ++ '>' :: suf)) vars
      = varSubst vars ('<' :: (name ++ ['>'])) ++ expandVars suf vars := by
  have hcv : closeVar (name ++ '>' :: suf) = some (name, suf) :=
    closeVar_clean hne (fun c hc => ⟨(hclean c hc).2.1, (hclean c hc).2.2⟩) suf
  conv_lhs => rw [expandVars]
  rw [if_pos rfl, hcv]

/-- The one-token behaviour of expandVars: a well-formed variable token
after a bracket-free left context is replaced by the non-capturing
alternation of the escaped values of the variable, in declared order,
and scanning continues after the token. -/
theorem expandVars_token {pre name suf : List Char} {vars : VarTable}
    (hpre : '<' ∉ pre) (hne : name ≠ [])
    (hclean : ∀ c ∈ name, c ≠ '<' ∧ c ≠ '>' ∧ c ≠ '\n') :
    expandVars (pre ++ '<' :: (name ++ '>' :: suf)) vars
      = pre ++ "(?:".data
        ++ List.intercalate ['|'] (((List.lookup name vars).getD []).map quoteMeta)
        ++ ")".data ++ expandVars suf vars := by
  rw [expandVars_copy hpre, expandVars_token_step hne hclean]
  rw [varSubst, getVar]
  rw [strTrimAngles_token hne (fun c hc => ⟨(hclean c hc).1, (hclean c hc).2.1⟩)]
  simp [List.append_assoc]

/-- The section 4.6 description of the replacement assembly, used as
the specification side of the refinement proof for Replace: for each
match in order, the untouched slice from the cursor to the match
start, then the interpolated text, with the cursor moving to the match
stop; after the last match, the remaining tail of the word. -/
def replaceSpec (p : Pattern) (word : List Char) (rp : RPattern) :
    List (List Int) → Int → List Char
  | [], offset => word.drop offset.toNat
  | m :: rest, offset =>
    (word.drop offset.toNat).take (m[0]! - offset).toNat ++ rp p word m
      ++ replaceSpec p word rp rest m[1]!

/-- Decidable check that a match list fits the word from a given
cursor: every match record has at least two entries and the spans are
non-negative, non-decreasing and inside the word, so that no slice
taken by the Replace loop is out of range. -/
def spansFit (wordLen : Int) : List (List Int) → Int → Bool
  | [], offset => decide (0 ≤ offset) && decide (offset ≤ wordLen)
  | m :: rest, offset =>
    decide (2 ≤ m.length) && decide (0 ≤ offset) && decide (offset ≤ m[0]!)
      && decide (m[0]! ≤ wordLen) && spansFit wordLen rest m[1]!

/-- The lines printed by the Replace loop: one (start, stop) pair per
accepted match, in order. -/
def matchTrace (ms : List (List Int)) : List (Int × Int) :=
  ms.map (fun m => (m[0]!, m[1]!))

/-!
Claim results.
-/

/-- C1 counterexample: a bound of zero does not behave as the
unbounded search.  On the single-letter pattern a and the word a, the
unbounded search returns one match while Find with bound 0 returns the
empty match list. -/
theorem find_zero_bound_counterexample :
    Pattern.Find pLitA "a".data (-1) 2 = .done [[0, 1]]
    ∧ Pattern.Find pLitA "a".data 0 2 = .done []
    ∧ Pattern.Find pLitA "a".data 0 2 ≠ Pattern.Find pLitA "a".data (-1) 2 := by
  refine ⟨by decide, by decide, by decide⟩

/-- C1 (amended): only a strictly negative bound means the unbounded
search; any two negative bounds drive the loop identically, while a
zero bound makes Find return the empty match list at once. -/
theorem find_bound_semantics (p : Pattern) (word : List Char) :
    (∀ (n n' : Int), n < 0 → n' < 0 →
      ∀ (fuel : Nat) (ms : List (List Int)) (off : Nat),
        p.findLoop word n fuel ms off = p.findLoop word n' fuel ms off)
    ∧ (∀ fuel : Nat, 0 < fuel → p.Find word 0 fuel = .done []) := by
  constructor
  · intro n n' hn hn' fuel
    induction fuel with
    | zero => intro ms off; rfl
    | succ fuel ih =>
      intro ms off
      simp only [Pattern.findLoop]
      rw [if_pos (Or.inl hn), if_pos (Or.inl hn')]
      cases p.findStep word ms off with
      | noMore => rfl
      | panicked => rfl
      | next ms' off' => exact ih ms' off'
  · intro fuel hf
    match fuel, hf with
    | fuel + 1, _ =>
      simp only [Pattern.Find, Pattern.findLoop]
      rw [if_neg (by simp)]

/-- C1 witness. -/
theorem find_bound_semantics_witness :
    ((-1 : Int) < 0 ∧ (-2 : Int) < 0 ∧ (0 : Nat) < 2)
    ∧ Pattern.findLoop pLitA "a".data (-1) 2 [] 0 = Pattern.findLoop pLitA "a".data (-2) 2 [] 0
    ∧ Pattern.Find pLitA "a".data 0 2 = .done [] :=
  ⟨⟨by decide, by decide, by decide⟩,
    (find_bound_semantics pLitA "a".data).1 (-1) (-2) (by decide) (by decide) 2 [] 0,
    (find_bound_semantics pLitA "a".data).2 2 (by decide)⟩

/-- On the word a dot b, the pattern matching a literal dot is stuck at
cursor one: the mask itself keeps matching, so the loop never ends. -/
theorem pDot_stuck : ∀ (fuel : Nat) (ms : List (List Int)),
    Pattern.findLoop pDot "a.b".data (-1) fuel ms 1 = .fuelOut := by
  intro fuel
  induction fuel with
  | zero => intro ms; rfl
  | succ fuel ih =>
    intro ms
    have hstep : Pattern.findLoop pDot "a.b".data (-1) (fuel + 1) ms 1
        = Pattern.findLoop pDot "a.b".data (-1) fuel (ms ++ [[0, 1]]) 1 := rfl
    rw [hstep]
    exact ih _

/-- C2 (code bug): with the dot mask, a pattern matching a literal dot
makes Find run forever on the word a dot b under the unbounded bound,
and the cursor even moves backwards, from two to one, in the second
accepting iteration. -/
theorem find_cursor_regression_and_nontermination :
    (∀ fuel : Nat, Pattern.Find pDot "a.b".data (-1) fuel = .fuelOut)
    ∧ (∀ (fuel : Nat) (ms : List (List Int)),
        Pattern.findLoop pDot "a.b".data (-1) (fuel + 1) ms 2
          = Pattern.findLoop pDot "a.b".data (-1) fuel (ms ++ [[0, 1]]) 1) := by
  constructor
  · intro fuel
    match fuel with
    | 0 => rfl
    | 1 => rfl
    | 2 => rfl
    | k + 3 =>
      have h1 : Pattern.Find pDot "a.b".data (-1) (k + 3)
          = Pattern.findLoop pDot "a.b".data (-1) (k + 1) [[1, 2], [0, 1]] 1 := rfl
      rw [h1]
      exact pDot_stuck _ _
  · intro fuel ms
    rfl

/-- C3 (code bug): with a bound of two, the same pattern and word
produce a match list whose spans go backwards, the second accepted
span lying entirely inside already consumed, masked text. -/
theorem find_mask_rematch :
    Pattern.Find pDot "a.b".data 2 3 = .done [[1, 2], [0, 1]]
    ∧ spansSorted [[1, 2], [0, 1]] = false := by
  refine ⟨by decide, by decide⟩

/-- C4: when the candidate highlight contains a negative hit, the
candidate is not appended to the accepted results and the cursor
advances to the raw match start plus the end of the negative match;
and the step outcome depends on the negative matcher only through its
answer on the highlight, never on the rest of the word. -/
theorem findStep_negative_rejection (p : Pattern) (word : List Char)
    (ms : List (List Int)) (offset : Nat) (m negM : Submatches)
    (hm : p.re (maskWord word offset) = m)
    (hneg : p.neg (rawHighlight word offset m) = negM)
    (hne : m.length ≠ 0) (hw : m[1]! - m[0]! ≠ 0) (hlen : 10 ≤ m.length)
    (hhit : negM.length ≠ 0) :
    p.findStep word ms offset = .next ms (m[0]! + negM[1]!).toNat
    ∧ ∀ q : Pattern, q.re (maskWord word offset) = m →
        q.neg (rawHighlight word offset m) = negM →
        q.findStep word ms offset = .next ms (m[0]! + negM[1]!).toNat := by
  have key : ∀ q : Pattern, q.re (maskWord word offset) = m →
      q.neg (rawHighlight word offset m) = negM →
      q.findStep word ms offset = .next ms (m[0]! + negM[1]!).toNat := by
    intro q hqre hqneg
    simp only [Pattern.findStep, hqre, hqneg]
    rw [if_neg (by push_neg; exact ⟨hne, hw⟩), if_neg (Nat.not_lt.mpr hlen), if_neg hhit]
  exact ⟨key p hm hneg, key⟩

/-- C4 witness: the expression a with negative lookahead b on the word
abab rejects the first candidate and moves the cursor to two. -/
theorem findStep_negative_rejection_witness :
    (negLitB (rawHighlight "abab".data 0 (reANegLookB "abab".data))).length ≠ 0
    ∧ Pattern.findStep pANegB "abab".data [] 0 = .next [] 2 := by
  refine ⟨by decide, ?_⟩
  have h := (findStep_negative_rejection pANegB "abab".data [] 0
    (reANegLookB "abab".data) (negLitB (rawHighlight "abab".data 0 (reANegLookB "abab".data)))
    rfl rfl (by decide) (by decide) (by decide) (by decide)).1
  exact h.trans (by decide)

/-- C5: an accepted candidate is emitted with start taken from the
leading lookbehind group when it participated, else the raw match
start, and stop taken from the trailing lookahead group when it
participated, else the raw match end; the cursor moves to that stop. -/
theorem findStep_semantic_span (p : Pattern) (word : List Char)
    (ms : List (List Int)) (offset : Nat) (m : Submatches)
    (hm : p.re (maskWord word offset) = m)
    (hacc : (p.neg (rawHighlight word offset m)).length = 0)
    (hne : m.length ≠ 0) (hw : m[1]! - m[0]! ≠ 0) (hlen : 10 ≤ m.length) :
    p.findStep word ms offset
      = .next (ms ++ [[if m[5]! = -1 then m[0]! else m[5]!,
            if m[m.length - 4]! = -1 then m[1]! else m[m.length - 4]!]
          ++ (m.drop 6).take (m.length - 10)])
        (if m[m.length - 4]! = -1 then m[1]! else m[m.length - 4]!).toNat := by
  simp only [Pattern.findStep, hm, hacc]
  rw [if_neg (by push_neg; exact ⟨hne, hw⟩), if_neg (Nat.not_lt.mpr hlen)]
  simp

/-- C5 witness: with lookbehind x and lookahead y around a, the word
x a y yields the semantic span from one to two, excluding both
lookaround characters, and the cursor stops before the lookahead. -/
theorem findStep_semantic_span_witness :
    (10 ≤ (reLookXAY "xay".data).length)
    ∧ Pattern.findStep pXAY "xay".data [] 0 = .next [[1, 2]] 2 := by
  refine ⟨by decide, ?_⟩
  have h := findStep_semantic_span pXAY "xay".data [] 0 (reLookXAY "xay".data)
    rfl (by decide) (by decide) (by decide) (by decide)
  exact h.trans (by decide)

/-- Under the structural invariant the positive matcher never returns
a nonempty result with fewer than five group pairs, so the step never
panics. -/
theorem findStep_no_panic {p : Pattern} (word : List Char)
    (hinv : ∀ s : List Char, p.re s = [] ∨ 10 ≤ (p.re s).length)
    (ms : List (List Int)) (offset : Nat) :
    p.findStep word ms offset ≠ .panicked := by
  simp only [Pattern.findStep]
  rcases hinv (maskWord word offset) with h | h
  · simp [h]
  · split
    · simp
    · rw [if_neg (Nat.not_lt.mpr h)]
      split <;> simp

/-- C8: a nonempty, nonzero-width positive result with fewer than five
group pairs makes the step panic instead of emitting a match; and when
the positive matcher satisfies the structural invariant this branch is
unreachable, so no run of the Find loop ever panics. -/
theorem find_malformed_submatch_panic (p : Pattern) (word : List Char) (n : Int) :
    (∀ (ms : List (List Int)) (offset : Nat),
      (p.re (maskWord word offset)).length ≠ 0 →
      (p.re (maskWord word offset))[1]! - (p.re (maskWord word offset))[0]! ≠ 0 →
      (p.re (maskWord word offset)).length < 10 →
      p.findStep word ms offset = .panicked)
    ∧ ((∀ s : List Char, p.re s = [] ∨ 10 ≤ (p.re s).length) →
      ∀ (fuel : Nat) (ms : List (List Int)) (offset : Nat),
        p.findLoop word n fuel ms offset ≠ .panicked) := by
  constructor
  · intro ms offset hne hw hlt
    unfold Pattern.findStep
    rw [if_neg (by push_neg; exact ⟨hne, hw⟩), if_pos hlt]
  · intro hinv fuel
    induction fuel with
    | zero => intro ms offset; simp [Pattern.findLoop]
    | succ fuel ih =>
      intro ms offset
      simp only [Pattern.findLoop]
      split
      · cases hstep : p.findStep word ms offset with
        | noMore => simp [hstep]
        | panicked => exact absurd hstep (findStep_no_panic word hinv ms offset)
        | next ms' off' => simpa [hstep] using ih ms' off'
      · simp

/-- The single-letter positive matcher satisfies the structural
invariant: no match, or ten group indices. -/
theorem reLitChar_wf (c : Char) :
    ∀ s : List Char, reLitChar c s = [] ∨ 10 ≤ (reLitChar c s).length := by
  intro s
  unfold reLitChar
  cases s.findIdx? (· = c) <;> simp

/-- C8 witness: a bare compiled literal with no groups panics, while
the invariant-respecting single-letter pattern never panics. -/
theorem find_malformed_submatch_panic_witness :
    ((reBareChar 'a' (maskWord "a".data 0)).length < 10)
    ∧ Pattern.findStep ⟨reBareChar 'a', negNever⟩ "a".data [] 0 = .panicked
    ∧ Pattern.findLoop pLitA "a".data (-1) 2 [] 0 ≠ .panicked := by
  refine ⟨by decide, ?_, ?_⟩
  · exact (find_malformed_submatch_panic ⟨reBareChar 'a', negNever⟩ "a".data (-1)).1 [] 0
      (by decide) (by decide) (by decide)
  · exact (find_malformed_submatch_panic pLitA "a".data (-1)).2 (reLitChar_wf 'a') 2 [] 0

/-- The Replace loop equals the specification assembly whenever the
match list fits the word: the builder accumulates exactly the
interleaving of untouched slices and interpolated texts, the printed
lines are one per match, and no slice panics. -/
theorem replaceLoop_spec (p : Pattern) (word : List Char) (rp : RPattern)
    (rps : List RPattern) :
    ∀ (ms : List (List Int)) (offset : Int) (buf : List Char) (out : List (Int × Int)),
      spansFit (word.length : Int) ms offset = true →
      p.replaceLoop word (rp :: rps) ms offset buf out
        = some (buf ++ replaceSpec p word rp ms offset, out ++ matchTrace ms) := by
  intro ms
  induction ms with
  | nil =>
    intro offset buf out hfit
    simp only [spansFit, Bool.and_eq_true, decide_eq_true_eq] at hfit
    simp [Pattern.replaceLoop, replaceSpec, matchTrace, hfit.1, hfit.2]
  | cons m rest ih =>
    intro offset buf out hfit
    simp only [spansFit, Bool.and_eq_true, decide_eq_true_eq] at hfit
    obtain ⟨⟨⟨⟨hm2, h0⟩, hos⟩, hsl⟩, hrest⟩ := hfit
    simp only [Pattern.replaceLoop]
    rw [if_neg (Nat.not_lt.mpr hm2), if_pos ⟨h0, hos, hsl⟩]
    rw [ih _ _ _ hrest]
    simp [replaceSpec, matchTrace, List.append_assoc]

/-- C9 counterexample: on the dot pattern over a dot b with bound two,
Find succeeds with two accepted matches but Replace builds no output
at all: the second match starts before the cursor, so the slice
word[offset:start] is out of range and the program panics instead of
appending the described interleaving. -/
theorem replace_assembly_counterexample :
    Pattern.Find pDot "a.b".data 2 3 = .done [[1, 2], [0, 1]]
    ∧ Pattern.Replace pDot "a.b".data [fun _ _ _ => ['X']] 2 3 = none := by
  refine ⟨by decide, by decide⟩

/-- C9 (amended): whenever the match list returned by Find fits the
word, with non-negative, non-decreasing spans inside the word, Replace
appends, for each accepted match in order, the untouched slice of the
word before the match start, then the interpolated text for the match,
moving the cursor to the match stop, and finally the tail of the word;
and only the first supplied replacement rule is ever consulted,
whatever else is supplied.  Outside that fit, the slice
word[offset:start] panics, which is reachable through the mask bug. -/
theorem replace_assembly_amended (p : Pattern) (word : List Char) (rp : RPattern)
    (rps rps' : List RPattern) (n : Int) (fuel : Nat) (ms : List (List Int))
    (h : p.Find word n fuel = .done ms)
    (hfit : spansFit (word.length : Int) ms 0 = true) :
    p.Replace word (rp :: rps) n fuel
      = some ([replaceSpec p word rp ms 0], matchTrace ms)
    ∧ p.Replace word (rp :: rps) n fuel = p.Replace word (rp :: rps') n fuel := by
  have e : ∀ rest : List RPattern, p.Replace word (rp :: rest) n fuel
      = some ([replaceSpec p word rp ms 0], matchTrace ms) := by
    intro rest
    simp only [Pattern.Replace, h]
    rw [replaceLoop_spec p word rp rest ms 0 [] [] hfit]
    simp
  exact ⟨e rps, (e rps).trans (e rps').symm⟩

/-- C9 witness: replacing the letter l by L in hello, whose match list
fits the word. -/
theorem replace_assembly_amended_witness :
    (Pattern.Find pLitL "hello".data (-1) 4 = .done [[2, 3], [3, 4]]
      ∧ spansFit ("hello".data.length : Int) [[2, 3], [3, 4]] 0 = true)
    ∧ Pattern.Replace pLitL "hello".data [fun _ _ _ => ['L']] (-1) 4
        = some ([replaceSpec pLitL "hello".data (fun _ _ _ => ['L']) [[2, 3], [3, 4]] 0],
            matchTrace [[2, 3], [3, 4]]) :=
  ⟨⟨by decide, by decide⟩,
    (replace_assembly_amended pLitL "hello".data (fun _ _ _ => ['L']) [] [] (-1) 4
      [[2, 3], [3, 4]] (by decide) (by decide)).1⟩

/-- C10 (code bug): on a word with accepted matches the Replace loop
prints one line per match, so the returned rewritten word is not its
only observable effect. -/
theorem replace_prints :
    Pattern.Replace pLitL "hello".data [fun _ _ _ => ['L']] (-1) 4
      = some (["heLLo".data], [(2, 3), (3, 4)])
    ∧ ([((2 : Int), (3 : Int)), (3, 4)] : List (Int × Int)) ≠ [] := by
  refine ⟨rfl, by decide⟩

/-- C6 (code bug): on the expression of a single variable token v with
values a and bb, the given expandVars returns only the rewritten
expression, while the spec-modelled expansion also returns the ordered
record of substituted raw value lists that the caller NewPattern
destructures. -/
theorem expandVars_drops_record :
    expandVars "<v>".data [("v".data, ["a".data, "bb".data])] = "(?:a|bb)".data
    ∧ expandVarsSpec "<v>".data [("v".data, ["a".data, "bb".data])]
        = ("(?:a|bb)".data, [["a".data, "bb".data]]) := by
  constructor
  · simp [expandVars, closeVar, closeVarGo, varSubst, getVar, strTrimAngles, trimLeftAngle,
      quoteMeta, isRegexSpecial, List.lookup, List.intercalate]
  · simp [expandVarsSpec, closeVar, closeVarGo, varSubst, getVar, strTrimAngles, trimLeftAngle,
      quoteMeta, isRegexSpecial, List.lookup, List.intercalate]

/-- C7: every well-formed variable token, after a bracket-free left
context, is replaced by the non-capturing alternation of the escaped
values joined by the bar, in declared order; a name absent from the
table is not an error and silently yields the empty alternation. -/
theorem expandVars_replaces_tokens {pre name suf : List Char} {vars : VarTable}
    (hpre : '<' ∉ pre) (hne : name ≠ [])
    (hclean : ∀ c ∈ name, c ≠ '<' ∧ c ≠ '>' ∧ c ≠ '\n') :
    expandVars (pre ++ '<' :: (name ++ '>' :: suf)) vars
      = pre ++ "(?:".data
        ++ List.intercalate ['|'] (((List.lookup name vars).getD []).map quoteMeta)
        ++ ")".data ++ expandVars suf vars
    ∧ (List.lookup name vars = none →
        expandVars (pre ++ '<' :: (name ++ '>' :: suf)) vars
          = pre ++ "(?:)".data ++ expandVars suf vars) := by
  refine ⟨expandVars_token hpre hne hclean, fun habs => ?_⟩
  rw [expandVars_token hpre hne hclean, habs]
  simp
  rfl

/-- C7 witness: the token of the undefined variable v between x and y
expands to the empty alternation without failing. -/
theorem expandVars_replaces_tokens_witness :
    ('<' ∉ "x".data ∧ List.lookup "v".data ([("w".data, [['q']])] : VarTable) = none)
    ∧ expandVars ("x".data ++ '<' :: ("v".data ++ '>' :: "y".data)) [("w".data, [['q']])]
        = "x".data ++ "(?:)".data ++ expandVars "y".data [("w".data, [['q']])] := by
  refine ⟨⟨by decide, by decide⟩, ?_⟩
  exact (expandVars_replaces_tokens (by decide) (by decide) (by decide)).2 (by decide)
